import Mathlib

/-!
A shallow embedding of `markdown_to_docs_requests` from `src/google_docs.py`
(repository robertodevs/mcp-googledocs), together with proofs checking the
specification's claims about it.

Strings are modelled as `List Char` (Python `len` counts code points, which
coincides with the length of the scalar-value list for the inputs at stake).
Python's regular expressions are embedded as explicit character scanners that
reproduce the exact matching semantics (greedy/non-greedy backtracking) of the
five patterns the source uses.  Whitespace (`str.strip`, `\s`) is modelled by
the six ASCII whitespace characters Python recognises.
-/

namespace MdDocs

abbrev Chars := List Char

/-- The backquote character, written via its code point. -/
def btick : Char := Char.ofNat 96

/-- Python whitespace for `str.strip` and the regex class `\s`
(space, tab, newline, carriage return, vertical tab, form feed). -/
def pyIsSpace (c : Char) : Bool :=
  c == ' ' || c == '\t' || c == '\n' || c == '\r' || c == Char.ofNat 11 || c == Char.ofNat 12

/-- The regex class `\w`: ASCII letters, digits and underscore. -/
def isWordChar (c : Char) : Bool := c.isAlphanum || c == '_'

/-- Python `str.strip()`: drop whitespace from both ends. -/
def pyStrip (l : Chars) : Chars :=
  ((l.dropWhile pyIsSpace).reverse.dropWhile pyIsSpace).reverse

/-- `not line.strip()`: the line is empty or all whitespace. -/
def isBlank (l : Chars) : Bool := (pyStrip l).isEmpty

/-- Worker for `re.split(r'\n{2,}', text)`: `cur` is the reversed current
block, `nl` the number of consecutive newlines just read and not yet
committed.  A run of two or more newlines separates blocks; a single newline
stays inside the block. -/
def sbGo (cur : Chars) (nl : Nat) : Chars → List Chars
  | [] => if nl ≥ 2 then [cur.reverse, []] else [(List.replicate nl '\n' ++ cur).reverse]
  | c :: rest =>
    if c = '\n' then sbGo cur (nl + 1) rest
    else if nl ≥ 2 then cur.reverse :: sbGo [c] 0 rest
    else sbGo (c :: (List.replicate nl '\n' ++ cur)) 0 rest

/-- `re.split(r'\n{2,}', markdown_text)` (line 187 of the source). -/
def splitBlocks (md : Chars) : List Chars := sbGo [] 0 md

/-- Python `str.split('\n')`: keeps empty pieces, `""` gives `[""]`. -/
def splitLines : Chars → List Chars
  | [] => [[]]
  | c :: rest =>
    if c = '\n' then [] :: splitLines rest
    else
      match splitLines rest with
      | [] => [[c]]
      | b :: bs => (c :: b) :: bs

/-- Index of the first character satisfying `p`. -/
def firstIdxOf (p : Char → Bool) : Chars → Option Nat
  | [] => none
  | a :: rest => if p a then some 0 else (firstIdxOf p rest).map (· + 1)

/-- Index of the first position where two consecutive characters equal `c`. -/
def firstDouble (c : Char) : Chars → Option Nat
  | [] => none
  | [_] => none
  | a :: b :: rest =>
    if a = c ∧ b = c then some 0 else (firstDouble c (b :: rest)).map (· + 1)

/-- Match of `\*\*(.+?)\*\*|__(.+?)__` anchored at the head of the suffix:
returns (match length, captured text).  The non-greedy `.+?` takes the
shortest non-empty content followed by the closing double delimiter. -/
def matchBold : Chars → Option (Nat × Chars)
  | '*' :: '*' :: rest =>
    match firstDouble '*' (rest.drop 1) with
    | some j => some (2 + (j + 1) + 2, rest.take (j + 1))
    | none => none
  | '_' :: '_' :: rest =>
    match firstDouble '_' (rest.drop 1) with
    | some j => some (2 + (j + 1) + 2, rest.take (j + 1))
    | none => none
  | _ => none

/-- Match of `\*([^*]+)\*|_([^_]+)_` anchored at the head of the suffix:
one delimiter, at least one character of the opposite class, the delimiter. -/
def matchItalic : Chars → Option (Nat × Chars)
  | '*' :: c :: rest =>
    if c = '*' then none
    else
      match firstIdxOf (· == '*') rest with
      | some j => some (j + 3, c :: rest.take j)
      | none => none
  | '_' :: c :: rest =>
    if c = '_' then none
    else
      match firstIdxOf (· == '_') rest with
      | some j => some (j + 3, c :: rest.take j)
      | none => none
  | _ => none

/-- Second half of the link pattern `\((.+?)\)`: a non-empty content then the
first closing parenthesis; returns (url, consumed length). -/
def closeParen : Chars → Option (Chars × Nat)
  | [] => none
  | a :: rest =>
    match firstIdxOf (· == ')') rest with
    | some j => some (a :: rest.take j, j + 2)
    | none => none

/-- Scan for `\]\(` after a non-empty link text, with the backtracking the
regex engine performs when the tail `\((.+?)\)` cannot complete: the text
absorbs the failed `](` and scanning continues. -/
def linkTailGo (acc : Chars) : Chars → Option (Chars × Chars × Nat)
  | [] => none
  | c :: more =>
    if c = ']' then
      match more with
      | '(' :: more2 =>
        match closeParen more2 with
        | some (url, k) => some (acc.reverse, url, acc.length + 2 + k)
        | none => linkTailGo (c :: acc) more
      | _ => linkTailGo (c :: acc) more
    else linkTailGo (c :: acc) more

/-- Match of `\[(.+?)\]\((.+?)\)` anchored at the head of the suffix:
returns (match length, (text, url)). -/
def matchLink : Chars → Option (Nat × (Chars × Chars))
  | '[' :: a :: rest =>
    match linkTailGo [a] rest with
    | some (text, url, k) => some (1 + k, (text, url))
    | none => none
  | _ => none

/-- `re.finditer`: scan left to right, at each position try the matcher; on a
match emit it and resume after it, otherwise advance one character.  The fuel
equals the scanned length; every match of the three scanners above consumes at
least three characters, so the fuel never runs out and the zero-length guard
never fires. -/
def findIterGo (matcher : Chars → Option (Nat × α)) : Nat → Chars → Nat → List (Nat × Nat × α)
  | 0, _, _ => []
  | _, [], _ => []
  | fuel + 1, c :: tail, p =>
    match matcher (c :: tail) with
    | some (len, a) =>
      if len = 0 then findIterGo matcher fuel tail (p + 1)
      else (p, p + len, a) :: findIterGo matcher fuel ((c :: tail).drop len) (p + len)
    | none => findIterGo matcher fuel tail (p + 1)

def findIter (matcher : Chars → Option (Nat × α)) (s : Chars) : List (Nat × Nat × α) :=
  findIterGo matcher s.length s 0

/-- Kind of an inline formatting candidate. -/
inductive MKind
  | bold
  | italic
  | link (url : Chars)
deriving DecidableEq

/-- One entry of `formatting_matches`: start offset, end offset (named `stop`
since `end` is reserved), captured text, kind. -/
structure FMatch where
  start : Nat
  stop : Nat
  text : Chars
  kind : MKind
deriving DecidableEq

def boldCandidates (l : Chars) : List FMatch :=
  (findIter matchBold l).map fun x => ⟨x.1, x.2.1, x.2.2, MKind.bold⟩

def italicCandidates (l : Chars) : List FMatch :=
  (findIter matchItalic l).map fun x => ⟨x.1, x.2.1, x.2.2, MKind.italic⟩

def linkCandidates (l : Chars) : List FMatch :=
  (findIter matchLink l).map fun x => ⟨x.1, x.2.1, x.2.2.1, MKind.link x.2.2.2⟩

/-- The pooled candidate list, in the order the source builds it
(bold scan, then italic scan, then link scan). -/
def allCandidates (l : Chars) : List FMatch :=
  boldCandidates l ++ italicCandidates l ++ linkCandidates l

/-- Stable insertion placing `m` before the first element with a start offset
not smaller than `m`'s. -/
def insertByStart (m : FMatch) : List FMatch → List FMatch
  | [] => [m]
  | a :: rest => if a.start < m.start then a :: insertByStart m rest else m :: a :: rest

/-- `formatting_matches.sort(key=lambda m: m['start'])` — a stable sort by
start offset. -/
def sortByStart : List FMatch → List FMatch
  | [] => []
  | m :: rest => insertByStart m (sortByStart rest)

/-- The overlap-removal while-loop (lines 395-400 of the source): `a` is the
candidate at the current index, the argument list is everything after it; an
overlapping next candidate is popped, otherwise the index moves on. -/
def popLoop (a : FMatch) : List FMatch → List FMatch
  | [] => [a]
  | b :: rest => if b.start < a.stop then popLoop a rest else a :: popLoop b rest

def filterOverlaps : List FMatch → List FMatch
  | [] => []
  | a :: rest => popLoop a rest

/-- The per-line candidate list after sorting and overlap removal. -/
def keptMatches (l : Chars) : List FMatch :=
  filterOverlaps (sortByStart (allCandidates l))

/-- Kind of one entry of `line_parts`. -/
inductive PKind
  | normal
  | bold
  | italic
  | link (url : Chars)
deriving DecidableEq

structure Part where
  text : Chars
  kind : PKind
deriving DecidableEq

def kindToPart : MKind → PKind
  | MKind.bold => PKind.bold
  | MKind.italic => PKind.italic
  | MKind.link url => PKind.link url

/-- `line[a:b]`. -/
def extract (l : Chars) (a b : Nat) : Chars := (l.drop a).take (b - a)

/-- The `line_parts` fold (lines 403-425): text before each match, then the
match's captured text, finally the remaining text. -/
def partsGo (l : Chars) (pos : Nat) : List FMatch → List Part
  | [] => if pos < l.length then [⟨l.drop pos, PKind.normal⟩] else []
  | m :: ms =>
    (if pos < m.start then [⟨extract l pos m.start, PKind.normal⟩] else []) ++
      ⟨m.text, kindToPart m.kind⟩ :: partsGo l m.stop ms

/-- `line_parts` for one line: the fold above, the whole-line fallback when it
produced nothing, and the appended newline part. -/
def lineParts (l : Chars) : List Part :=
  (if partsGo l 0 (keptMatches l) = [] then [⟨l, PKind.normal⟩]
   else partsGo l 0 (keptMatches l)) ++ [⟨['\n'], PKind.normal⟩]

/-- Character style payloads the source emits in `updateTextStyle` requests. -/
inductive TextStyle
  | bold
  | italic
  | link (url : Chars)
  | codeFont
deriving DecidableEq

inductive BulletPreset
  | numberedDecimal
  | bulletDiscCircleSquare
deriving DecidableEq

/-- One Google Docs batchUpdate request as emitted by the source.
`updateParagraphStyle` carries the heading level of its `HEADING_{level}`
named style. -/
inductive Req
  | insertText (index : Nat) (text : Chars)
  | updateTextStyle (startIndex endIndex : Nat) (style : TextStyle)
  | updateParagraphStyle (startIndex endIndex : Nat) (level : Nat)
  | createParagraphBullets (startIndex endIndex : Nat) (preset : BulletPreset)
deriving DecidableEq

/-- Emit one `line_parts` entry (lines 441-495): an insert, plus a style
request for bold/italic/link parts; the cursor advances by the text length. -/
def emitPart (c : Nat) (p : Part) : List Req × Nat :=
  match p.kind with
  | PKind.normal => ([Req.insertText c p.text], c + p.text.length)
  | PKind.bold =>
    ([Req.insertText c p.text, Req.updateTextStyle c (c + p.text.length) TextStyle.bold],
      c + p.text.length)
  | PKind.italic =>
    ([Req.insertText c p.text, Req.updateTextStyle c (c + p.text.length) TextStyle.italic],
      c + p.text.length)
  | PKind.link url =>
    ([Req.insertText c p.text, Req.updateTextStyle c (c + p.text.length) (TextStyle.link url)],
      c + p.text.length)

/-- Thread the cursor through a list of items, concatenating the emitted
requests in order. -/
def emitFold (f : Nat → α → List Req × Nat) : Nat → List α → List Req × Nat
  | c, [] => ([], c)
  | c, x :: xs =>
    ((f c x).1 ++ (emitFold f (f c x).2 xs).1, (emitFold f (f c x).2 xs).2)

/-- `re.match(r'^(#{1,6})\s+(.+)$', line)`: one to six leading hashes (seven
or more fail), at least one whitespace, then a non-empty rest.  When the rest
is all whitespace the greedy `\s+` gives its last character back to `(.+)`. -/
def headerMatch (l : Chars) : Option (Nat × Chars) :=
  if 1 ≤ (l.takeWhile (· == '#')).length ∧ (l.takeWhile (· == '#')).length ≤ 6 then
    if (l.dropWhile (· == '#')).takeWhile pyIsSpace = [] then none
    else
      if (l.dropWhile (· == '#')).dropWhile pyIsSpace ≠ [] then
        some ((l.takeWhile (· == '#')).length, (l.dropWhile (· == '#')).dropWhile pyIsSpace)
      else
        if 2 ≤ ((l.dropWhile (· == '#')).takeWhile pyIsSpace).length then
          some ((l.takeWhile (· == '#')).length,
            [((l.dropWhile (· == '#')).takeWhile pyIsSpace).getLastD ' '])
        else none
  else none

/-- Emit one line of a regular (non-code, non-list) block (lines 311-495):
blank lines insert a bare newline, header lines insert text plus a heading
paragraph style, anything else goes through the inline span scanner. -/
def emitRegularLine (c : Nat) (l : Chars) : List Req × Nat :=
  if isBlank l then ([Req.insertText c ['\n']], c + 1)
  else
    match headerMatch l with
    | some lt =>
      ([Req.insertText c (lt.2 ++ ['\n']),
        Req.updateParagraphStyle c (c + (lt.2 ++ ['\n']).length) lt.1],
        c + (lt.2 ++ ['\n']).length)
    | none => emitFold emitPart c (lineParts l)

/-- `re.match(r'^\s*(\d+)\.\s+(.+)$', line)`: optional leading whitespace, a
maximal non-empty digit run, a period, at least one whitespace, a non-empty
rest (with the same give-back as in `headerMatch`).  Returns (digits, item). -/
def orderedMatch (l : Chars) : Option (Chars × Chars) :=
  if (l.dropWhile pyIsSpace).takeWhile Char.isDigit = [] then none
  else
    match (l.dropWhile pyIsSpace).dropWhile Char.isDigit with
    | '.' :: rem =>
      if rem.takeWhile pyIsSpace = [] then none
      else
        if rem.dropWhile pyIsSpace ≠ [] then
          some ((l.dropWhile pyIsSpace).takeWhile Char.isDigit, rem.dropWhile pyIsSpace)
        else
          if 2 ≤ (rem.takeWhile pyIsSpace).length then
            some ((l.dropWhile pyIsSpace).takeWhile Char.isDigit,
              [(rem.takeWhile pyIsSpace).getLastD ' '])
          else none
    | _ => none

/-- `re.match(r'^\s*[\*\-\+]\s+(.+)$', line)`. -/
def unorderedMatch (l : Chars) : Option Chars :=
  match l.dropWhile pyIsSpace with
  | c :: rem =>
    if c = '*' ∨ c = '-' ∨ c = '+' then
      if rem.takeWhile pyIsSpace = [] then none
      else
        if rem.dropWhile pyIsSpace ≠ [] then some (rem.dropWhile pyIsSpace)
        else
          if 2 ≤ (rem.takeWhile pyIsSpace).length then
            some [(rem.takeWhile pyIsSpace).getLastD ' ']
          else none
    else none
  | [] => none

/-- `re.match(r'^\s*[\*\-\+]|\d+\.', line)` (line 233): either optional
whitespace then a bullet character, or — anchored at the line start with no
whitespace allowed — a digit run followed by a period.  No trailing space is
required by either alternative. -/
def isListLine (l : Chars) : Bool :=
  (match l.dropWhile pyIsSpace with
   | c :: _ => c == '*' || c == '-' || c == '+'
   | [] => false)
  ||
  (!(l.takeWhile Char.isDigit).isEmpty &&
    ((l.dropWhile Char.isDigit).head? == some '.'))

/-- `all(re.match(...) for line in lines if line.strip())`. -/
def isListBlock (lines : List Chars) : Bool :=
  lines.all fun l => isBlank l || isListLine l

/-- Emit one line of a list block (lines 235-298): ordered item, unordered
item, or plain fallback insert. -/
def emitListLine (c : Nat) (l : Chars) : List Req × Nat :=
  match orderedMatch l with
  | some nt =>
    ([Req.insertText c (nt.2 ++ ['\n']),
      Req.createParagraphBullets c (c + (nt.2 ++ ['\n']).length - 1) BulletPreset.numberedDecimal],
      c + (nt.2 ++ ['\n']).length)
  | none =>
    match unorderedMatch l with
    | some t =>
      ([Req.insertText c (t ++ ['\n']),
        Req.createParagraphBullets c (c + (t ++ ['\n']).length - 1)
          BulletPreset.bulletDiscCircleSquare],
        c + (t ++ ['\n']).length)
    | none => ([Req.insertText c (l ++ ['\n'])], c + l.length + 1)

/-- `re.match(r'^```(\w*)\n(.*?)\n```$', block, re.DOTALL)`: an opening fence
with a word-character tag and a newline, a body, and a closing fence at the
very end of the block (`$` also matches just before one final newline).
Returns (tag, body). -/
def codeFenceMatch (block : Chars) : Option (Chars × Chars) :=
  match block with
  | c1 :: c2 :: c3 :: rest =>
    if c1 = btick ∧ c2 = btick ∧ c3 = btick then
      match rest.dropWhile isWordChar with
      | '\n' :: body =>
        if ['\n', btick, btick, btick].isSuffixOf body then
          some (rest.takeWhile isWordChar, body.take (body.length - 4))
        else
          if ['\n', btick, btick, btick, '\n'].isSuffixOf body then
            some (rest.takeWhile isWordChar, body.take (body.length - 5))
          else none
      | _ => none
    else none
  | _ => none

/-- Append the extra separator newline a list or regular block emits after its
lines (lines 301-307 and 498-504). -/
def withSeparator (p : List Req × Nat) : List Req × Nat :=
  (p.1 ++ [Req.insertText p.2 ['\n']], p.2 + 1)

/-- Emit one block (lines 196-504): fenced code, list block, or regular
block of headers/paragraph lines. -/
def emitBlock (c : Nat) (block : Chars) : List Req × Nat :=
  match codeFenceMatch block with
  | some tc =>
    ([Req.insertText c (tc.2 ++ ['\n', '\n']),
      Req.updateTextStyle c (c + tc.2.length) TextStyle.codeFont],
      c + tc.2.length + 2)
  | none =>
    if isListBlock (splitLines block) && !(splitLines block).isEmpty then
      withSeparator (emitFold emitListLine c (splitLines block))
    else
      withSeparator (emitFold emitRegularLine c (splitLines block))

def goodLuckChars : Chars := "Good luck!".toList

/-- Lines 189-194: the stripped input's last line, stripped again, equals
`*Good luck!*`. -/
def hasGoodLuck (md : Chars) : Bool :=
  pyStrip ((splitLines (pyStrip md)).getLastD []) == "*Good luck!*".toList

/-- The whole conversion, returning the request list together with the final
value of `current_index`.  The special trailing "Good luck!" insert advances
the cursor, but the final newline insert after it does not (lines 506-538). -/
def mdRun (md : Chars) : List Req × Nat :=
  if hasGoodLuck md then
    ((emitFold emitBlock 1 (splitBlocks md)).1 ++
      [Req.insertText (emitFold emitBlock 1 (splitBlocks md)).2 goodLuckChars,
       Req.updateTextStyle (emitFold emitBlock 1 (splitBlocks md)).2
         ((emitFold emitBlock 1 (splitBlocks md)).2 + goodLuckChars.length) TextStyle.italic,
       Req.insertText ((emitFold emitBlock 1 (splitBlocks md)).2 + goodLuckChars.length) ['\n']],
      (emitFold emitBlock 1 (splitBlocks md)).2 + goodLuckChars.length)
  else emitFold emitBlock 1 (splitBlocks md)

/-- `markdown_to_docs_requests` (line 169): the emitted request list. -/
def markdown_to_docs_requests (md : Chars) : List Req := (mdRun md).1

/-- The value of `current_index` after the last emitted request. -/
def mdFinalCursor (md : Chars) : Nat := (mdRun md).2

/-! ### Accounting definitions used by the claims -/

/-- Sum of the lengths of the text fields of the `insertText` requests. -/
def insLen : List Req → Nat
  | [] => 0
  | Req.insertText _ t :: rs => t.length + insLen rs
  | Req.updateTextStyle _ _ _ :: rs => insLen rs
  | Req.updateParagraphStyle _ _ _ :: rs => insLen rs
  | Req.createParagraphBullets _ _ _ :: rs => insLen rs

/-- The leading index of a request: the insertion index of an `insertText`,
the range start of a style request. -/
def primIdx : Req → Nat
  | Req.insertText i _ => i
  | Req.updateTextStyle s _ _ => s
  | Req.updateParagraphStyle s _ _ => s
  | Req.createParagraphBullets s _ _ => s

/-- The leading indices are at least `c`, non-decreasing along the list, and
the last one is at most `c'`. -/
def MonoB (c : Nat) : List Req → Nat → Prop
  | [], c' => c ≤ c'
  | r :: rs, c' => c ≤ primIdx r ∧ MonoB (primIdx r) rs c'

/-- Starting from a document whose covered region is `[1, d)`: every insert
happens exactly at the current end `d` (append-only) and grows the region by
its length, and every style request's end stays within the region covered so
far. -/
def CovFrom (d : Nat) : List Req → Prop
  | [] => True
  | Req.insertText i t :: rs => i = d ∧ CovFrom (d + t.length) rs
  | Req.updateTextStyle _ e _ :: rs => e ≤ d ∧ CovFrom d rs
  | Req.updateParagraphStyle _ e _ :: rs => e ≤ d ∧ CovFrom d rs
  | Req.createParagraphBullets _ e _ :: rs => e ≤ d ∧ CovFrom d rs

/-- `o` is the index and text length of the most recent insert (if any);
every style request's end is at most the cursor value recorded right after
that insert, namely its index plus its text length. -/
def AdjFrom : Option (Nat × Nat) → List Req → Prop
  | _, [] => True
  | _, Req.insertText i t :: rs => AdjFrom (some (i, t.length)) rs
  | none, Req.updateTextStyle _ _ _ :: _ => False
  | none, Req.updateParagraphStyle _ _ _ :: _ => False
  | none, Req.createParagraphBullets _ _ _ :: _ => False
  | some p, Req.updateTextStyle _ e _ :: rs => e ≤ p.1 + p.2 ∧ AdjFrom (some p) rs
  | some p, Req.updateParagraphStyle _ e _ :: rs => e ≤ p.1 + p.2 ∧ AdjFrom (some p) rs
  | some p, Req.createParagraphBullets _ e _ :: rs => e ≤ p.1 + p.2 ∧ AdjFrom (some p) rs

/-- The most recent insert after traversing `l`, starting from `o`. -/
def lastIns : Option (Nat × Nat) → List Req → Option (Nat × Nat)
  | o, [] => o
  | _, Req.insertText i t :: rs => lastIns (some (i, t.length)) rs
  | o, Req.updateTextStyle _ _ _ :: rs => lastIns o rs
  | o, Req.updateParagraphStyle _ _ _ :: rs => lastIns o rs
  | o, Req.createParagraphBullets _ _ _ :: rs => lastIns o rs

/-- The bundle of invariants every emitter preserves: exact cursor
bookkeeping, monotone leading indices, coverage, and style-follows-insert. -/
def ChunkOK (c : Nat) (p : List Req × Nat) : Prop :=
  p.2 = c + insLen p.1 ∧ MonoB c p.1 p.2 ∧ CovFrom c p.1 ∧ AdjFrom none p.1

/-- The texts of the `insertText` requests, in order. -/
def insTexts : List Req → List Chars
  | [] => []
  | Req.insertText _ t :: rs => t :: insTexts rs
  | Req.updateTextStyle _ _ _ :: rs => insTexts rs
  | Req.updateParagraphStyle _ _ _ :: rs => insTexts rs
  | Req.createParagraphBullets _ _ _ :: rs => insTexts rs

/-! ### Definitions following the specification's words, for comparison -/

/-- Following the specification's words for overlap resolution: scan the
sorted list and drop any candidate whose start lies before the end of the
most recently kept candidate. -/
def firstWins : Option Nat → List FMatch → List FMatch
  | _, [] => []
  | none, m :: ms => m :: firstWins (some m.stop) ms
  | some e, m :: ms =>
    if m.start < e then firstWins (some e) ms else m :: firstWins (some m.stop) ms

/-- Following the specification's words for span coverage: the segments of
the line outside the kept spans appear verbatim, and each kept span
contributes its captured text. -/
def renderSpans (l : Chars) : Nat → List FMatch → Chars
  | pos, [] => l.drop pos
  | pos, m :: ms => extract l pos m.start ++ m.text ++ renderSpans l m.stop ms

/-- The claim's list-item test: a bullet character followed by a space at the
start of the line, or a digit run followed by a period and a space at the
start of the line. -/
def claimListItemLine (l : Chars) : Bool :=
  (match l with
   | b :: ' ' :: _ => b == '*' || b == '-' || b == '+'
   | _ => false)
  ||
  (!(l.takeWhile Char.isDigit).isEmpty &&
    match l.dropWhile Char.isDigit with
    | '.' :: ' ' :: _ => true
    | _ => false)

/-- The four-request sequence the claim predicts for Scenario A. -/
def scenarioAClaimed : List Req :=
  [Req.insertText 1 "Title\n".toList,
   Req.updateParagraphStyle 1 7 1,
   Req.insertText 7 "plain text\n".toList,
   Req.insertText 18 ['\n']]

def isParaHeading : Req → Bool
  | Req.updateParagraphStyle _ _ _ => true
  | _ => false

def isCodeStyle : Req → Bool
  | Req.updateTextStyle _ _ TextStyle.codeFont => true
  | _ => false

def isGoodLuckIns : Req → Bool
  | Req.insertText _ t => t == "Good luck!".toList
  | _ => false

/-! ### Composition lemmas for the emitter invariants -/

theorem insLen_append (xs ys : List Req) : insLen (xs ++ ys) = insLen xs + insLen ys := by
  induction xs with
  | nil => simp [insLen]
  | cons r rs ih => cases r <;> simp [insLen, ih, Nat.add_assoc]

theorem monoB_weaken {c₀ c c' : Nat} (h : c ≤ c₀) (l : List Req) (hm : MonoB c₀ l c') :
    MonoB c l c' := by
  cases l with
  | nil => exact le_trans h hm
  | cons r rs => exact ⟨le_trans h hm.1, hm.2⟩

theorem monoB_append {c m c' : Nat} :
    ∀ {xs : List Req}, MonoB c xs m → ∀ {ys : List Req}, MonoB m ys c' → MonoB c (xs ++ ys) c' := by
  intro xs
  induction xs generalizing c with
  | nil => intro h ys hy; exact monoB_weaken h ys hy
  | cons r rs ih => intro h ys hy; exact ⟨h.1, ih h.2 hy⟩

theorem covFrom_append {ys : List Req} :
    ∀ {xs : List Req} {d : Nat}, CovFrom d xs → CovFrom (d + insLen xs) ys →
      CovFrom d (xs ++ ys) := by
  intro xs
  induction xs with
  | nil => intro d _ hy; simpa [insLen] using hy
  | cons r rs ih =>
    intro d hx hy
    cases r with
    | insertText i t =>
      refine ⟨hx.1, ih hx.2 ?_⟩
      have : d + insLen (Req.insertText i t :: rs) = d + t.length + insLen rs := by
        simp [insLen]; omega
      rw [this] at hy; exact hy
    | updateTextStyle s e st => exact ⟨hx.1, ih hx.2 (by simpa [insLen] using hy)⟩
    | updateParagraphStyle s e lv => exact ⟨hx.1, ih hx.2 (by simpa [insLen] using hy)⟩
    | createParagraphBullets s e pr => exact ⟨hx.1, ih hx.2 (by simpa [insLen] using hy)⟩

theorem adjFrom_of_none {l : List Req} : ∀ (o : Option (Nat × Nat)), AdjFrom none l → AdjFrom o l := by
  cases l with
  | nil => intro o _; cases o <;> simp [AdjFrom]
  | cons r rs =>
    intro o h
    cases r with
    | insertText i t =>
      have h' : AdjFrom (some (i, t.length)) rs := by simpa [AdjFrom] using h
      cases o <;> simpa [AdjFrom] using h'
    | updateTextStyle s e st => exact absurd h (by simp [AdjFrom])
    | updateParagraphStyle s e lv => exact absurd h (by simp [AdjFrom])
    | createParagraphBullets s e pr => exact absurd h (by simp [AdjFrom])

theorem adjFrom_append {ys : List Req} :
    ∀ {xs : List Req} {o : Option (Nat × Nat)}, AdjFrom o xs → AdjFrom (lastIns o xs) ys →
      AdjFrom o (xs ++ ys) := by
  intro xs
  induction xs with
  | nil => intro o _ hy; simpa [lastIns] using hy
  | cons r rs ih =>
    intro o hx hy
    cases r with
    | insertText i t =>
      have hx' : AdjFrom (some (i, t.length)) rs := by simpa [AdjFrom] using hx
      have hy' : AdjFrom (lastIns (some (i, t.length)) rs) ys := by
        simpa [lastIns] using hy
      have := ih hx' hy'
      cases o <;> simpa [AdjFrom] using this
    | updateTextStyle s e st =>
      cases o with
      | none => exact absurd hx (by simp [AdjFrom])
      | some p =>
        have hp := (show e ≤ p.1 + p.2 ∧ AdjFrom (some p) rs by simpa [AdjFrom] using hx)
        have hy' : AdjFrom (lastIns (some p) rs) ys := by simpa [lastIns] using hy
        simpa [AdjFrom] using ⟨hp.1, ih hp.2 hy'⟩
    | updateParagraphStyle s e lv =>
      cases o with
      | none => exact absurd hx (by simp [AdjFrom])
      | some p =>
        have hp := (show e ≤ p.1 + p.2 ∧ AdjFrom (some p) rs by simpa [AdjFrom] using hx)
        have hy' : AdjFrom (lastIns (some p) rs) ys := by simpa [lastIns] using hy
        simpa [AdjFrom] using ⟨hp.1, ih hp.2 hy'⟩
    | createParagraphBullets s e pr =>
      cases o with
      | none => exact absurd hx (by simp [AdjFrom])
      | some p =>
        have hp := (show e ≤ p.1 + p.2 ∧ AdjFrom (some p) rs by simpa [AdjFrom] using hx)
        have hy' : AdjFrom (lastIns (some p) rs) ys := by simpa [lastIns] using hy
        simpa [AdjFrom] using ⟨hp.1, ih hp.2 hy'⟩

theorem chunkOK_append2 {c : Nat} {p q : List Req × Nat} (h1 : ChunkOK c p)
    (h2 : ChunkOK p.2 q) : ChunkOK c (p.1 ++ q.1, q.2) := by
  obtain ⟨e1, m1, v1, a1⟩ := h1
  obtain ⟨e2, m2, v2, a2⟩ := h2
  refine ⟨?_, ?_, ?_, ?_⟩
  · rw [insLen_append]; omega
  · exact monoB_append m1 m2
  · refine covFrom_append v1 ?_
    have : c + insLen p.1 = p.2 := by omega
    rw [this]; exact v2
  · exact adjFrom_append a1 (adjFrom_of_none _ a2)

theorem chunkOK_nil (c : Nat) : ChunkOK c ([], c) := by
  refine ⟨by simp [insLen], le_refl c, trivial, trivial⟩

theorem chunkOK_emitFold (f : Nat → α → List Req × Nat)
    (hf : ∀ c x, ChunkOK c (f c x)) :
    ∀ (xs : List α) (c : Nat), ChunkOK c (emitFold f c xs) := by
  intro xs
  induction xs with
  | nil => intro c; exact chunkOK_nil c
  | cons x xs ih => intro c; exact chunkOK_append2 (hf c x) (ih (f c x).2)

/-- A lone insert at the cursor keeps all invariants. -/
theorem chunkOK_ins (c : Nat) (t : Chars) : ChunkOK c ([Req.insertText c t], c + t.length) := by
  refine ⟨by simp [insLen], ?_, ?_, ?_⟩
  · exact ⟨le_refl c, by simp [MonoB, primIdx]⟩
  · exact ⟨rfl, trivial⟩
  · simp [AdjFrom]

/-- An insert at the cursor followed by an `updateTextStyle` whose end does
not exceed the advanced cursor keeps all invariants. -/
theorem chunkOK_ins_uts (c : Nat) (t : Chars) (e : Nat) (st : TextStyle)
    (he : e ≤ c + t.length) :
    ChunkOK c ([Req.insertText c t, Req.updateTextStyle c e st], c + t.length) := by
  refine ⟨by simp [insLen], ?_, ?_, ?_⟩
  · exact ⟨le_refl c, le_refl c, Nat.le_add_right c t.length⟩
  · exact ⟨rfl, he, trivial⟩
  · simp [AdjFrom]; omega

theorem chunkOK_ins_ups (c : Nat) (t : Chars) (e : Nat) (lv : Nat)
    (he : e ≤ c + t.length) :
    ChunkOK c ([Req.insertText c t, Req.updateParagraphStyle c e lv], c + t.length) := by
  refine ⟨by simp [insLen], ?_, ?_, ?_⟩
  · exact ⟨le_refl c, le_refl c, Nat.le_add_right c t.length⟩
  · exact ⟨rfl, he, trivial⟩
  · simp [AdjFrom]; omega

theorem chunkOK_ins_cpb (c : Nat) (t : Chars) (e : Nat) (pr : BulletPreset)
    (he : e ≤ c + t.length) :
    ChunkOK c ([Req.insertText c t, Req.createParagraphBullets c e pr], c + t.length) := by
  refine ⟨by simp [insLen], ?_, ?_, ?_⟩
  · exact ⟨le_refl c, le_refl c, Nat.le_add_right c t.length⟩
  · exact ⟨rfl, he, trivial⟩
  · simp [AdjFrom]; omega

theorem chunkOK_emitPart (c : Nat) (p : Part) : ChunkOK c (emitPart c p) := by
  cases hp : p.kind with
  | normal => simpa [emitPart, hp] using chunkOK_ins c p.text
  | bold => simpa [emitPart, hp] using chunkOK_ins_uts c p.text (c + p.text.length) TextStyle.bold (le_refl _)
  | italic => simpa [emitPart, hp] using chunkOK_ins_uts c p.text (c + p.text.length) TextStyle.italic (le_refl _)
  | link url => simpa [emitPart, hp] using chunkOK_ins_uts c p.text (c + p.text.length) (TextStyle.link url) (le_refl _)

theorem chunkOK_emitRegularLine (c : Nat) (l : Chars) : ChunkOK c (emitRegularLine c l) := by
  unfold emitRegularLine
  split
  · simpa using chunkOK_ins c ['\n']
  · split
    · next lt _ =>
      exact chunkOK_ins_ups c (lt.2 ++ ['\n']) (c + (lt.2 ++ ['\n']).length) lt.1 (le_refl _)
    · exact chunkOK_emitFold emitPart chunkOK_emitPart (lineParts l) c

theorem chunkOK_emitListLine (c : Nat) (l : Chars) : ChunkOK c (emitListLine c l) := by
  unfold emitListLine
  split
  · next nt _ =>
    exact chunkOK_ins_cpb c (nt.2 ++ ['\n']) (c + (nt.2 ++ ['\n']).length - 1)
      BulletPreset.numberedDecimal (by omega)
  · split
    · next t _ =>
      exact chunkOK_ins_cpb c (t ++ ['\n']) (c + (t ++ ['\n']).length - 1)
        BulletPreset.bulletDiscCircleSquare (by omega)
    · simpa using chunkOK_ins c (l ++ ['\n'])

theorem chunkOK_withSeparator {c : Nat} {p : List Req × Nat} (h : ChunkOK c p) :
    ChunkOK c (withSeparator p) := by
  have hsep : ChunkOK p.2 ([Req.insertText p.2 ['\n']], p.2 + 1) := by
    simpa using chunkOK_ins p.2 ['\n']
  exact chunkOK_append2 h hsep

theorem chunkOK_emitBlock (c : Nat) (b : Chars) : ChunkOK c (emitBlock c b) := by
  unfold emitBlock
  split
  · next tc _ =>
    have h := chunkOK_ins_uts c (tc.2 ++ ['\n', '\n']) (c + tc.2.length) TextStyle.codeFont
      (by simp)
    simpa [Nat.add_assoc] using h
  · split
    · exact chunkOK_withSeparator (chunkOK_emitFold emitListLine chunkOK_emitListLine _ c)
    · exact chunkOK_withSeparator (chunkOK_emitFold emitRegularLine chunkOK_emitRegularLine _ c)

theorem chunkOK_blocks (md : Chars) : ChunkOK 1 (emitFold emitBlock 1 (splitBlocks md)) :=
  chunkOK_emitFold emitBlock chunkOK_emitBlock (splitBlocks md) 1

/-! ### Invariants of the full run -/

theorem mdRun_conserve (md : Chars) :
    (mdRun md).2 + (if hasGoodLuck md then 1 else 0) = 1 + insLen (mdRun md).1 := by
  have hb := (chunkOK_blocks md).1
  unfold mdRun
  cases h : hasGoodLuck md with
  | false => simp only [h, Bool.false_eq_true, if_false]; omega
  | true =>
    simp only [h, if_true]
    rw [insLen_append]
    simp [insLen]
    omega

theorem mdRun_mono (md : Chars) : MonoB 1 (mdRun md).1 (mdRun md).2 := by
  have hb := chunkOK_blocks md
  unfold mdRun
  cases h : hasGoodLuck md with
  | false => simp only [h, Bool.false_eq_true, if_false]; exact hb.2.1
  | true =>
    simp only [h, if_true]
    refine monoB_append hb.2.1 ?_
    simp only [MonoB, primIdx]
    refine ⟨le_refl _, le_refl _, Nat.le_add_right _ _, le_refl _⟩

theorem mdRun_cov (md : Chars) : CovFrom 1 (mdRun md).1 := by
  have hb := chunkOK_blocks md
  unfold mdRun
  cases h : hasGoodLuck md with
  | false => simp only [h, Bool.false_eq_true, if_false]; exact hb.2.2.1
  | true =>
    simp only [h, if_true]
    refine covFrom_append hb.2.2.1 ?_
    rw [← hb.1]
    exact ⟨rfl, le_refl _, rfl, trivial⟩

theorem mdRun_adj (md : Chars) : AdjFrom none (mdRun md).1 := by
  have hb := chunkOK_blocks md
  unfold mdRun
  cases h : hasGoodLuck md with
  | false => simp only [h, Bool.false_eq_true, if_false]; exact hb.2.2.2
  | true =>
    simp only [h, if_true]
    refine adjFrom_append hb.2.2.2 (adjFrom_of_none _ ?_)
    exact ⟨le_refl _, trivial⟩

theorem monoB_all_ge {c c' : Nat} :
    ∀ {l : List Req}, MonoB c l c' → ∀ r ∈ l, c ≤ primIdx r := by
  intro l
  induction l generalizing c with
  | nil => intro _ r hr; cases hr
  | cons s rs ih =>
    intro h r hr
    rcases hr with _ | hr
    · exact h.1
    · exact le_trans h.1 (ih h.2 r (by assumption))

/-! ### Span coverage machinery -/

theorem insTexts_append (xs ys : List Req) : insTexts (xs ++ ys) = insTexts xs ++ insTexts ys := by
  induction xs with
  | nil => simp [insTexts]
  | cons r rs ih => cases r <;> simp [insTexts, ih]

theorem insTexts_emitParts (c : Nat) (ps : List Part) :
    insTexts (emitFold emitPart c ps).1 = ps.map Part.text := by
  induction ps generalizing c with
  | nil => simp [emitFold, insTexts]
  | cons p ps ih =>
    show insTexts ((emitPart c p).1 ++ _) = _
    rw [insTexts_append]
    cases hp : p.kind <;> simp [emitPart, hp, insTexts, ih]

theorem partsGo_join (l : Chars) :
    ∀ (ms : List FMatch) (pos : Nat),
      ((partsGo l pos ms).map Part.text).flatten = renderSpans l pos ms := by
  intro ms
  induction ms with
  | nil =>
    intro pos
    by_cases h : pos < l.length
    · simp [partsGo, renderSpans, h]
    · simp [partsGo, renderSpans, h, List.drop_eq_nil_of_le (le_of_not_lt h)]
  | cons m ms ih =>
    intro pos
    by_cases h : pos < m.start
    · simp [partsGo, renderSpans, h, ih]
    · have hx : extract l pos m.start = [] := by
        unfold extract
        rw [Nat.sub_eq_zero_of_le (le_of_not_lt h)]
        simp
      simp [partsGo, renderSpans, h, ih, hx]

theorem lineConcat_renders (c : Nat) (l : Chars) :
    ((insTexts (emitFold emitPart c (lineParts l)).1).dropLast).flatten
      = renderSpans l 0 (keptMatches l) := by
  rw [insTexts_emitParts]
  unfold lineParts
  by_cases h : partsGo l 0 (keptMatches l) = []
  · rw [if_pos h]
    cases km : keptMatches l with
    | nil =>
      have hl : l = [] := by
        rw [km] at h
        by_cases hlen : 0 < l.length
        · simp [partsGo, hlen] at h
        · exact List.length_eq_zero.1 (by omega)
      subst hl
      simp [renderSpans]
    | cons m ms =>
      exfalso
      rw [km] at h
      simp [partsGo] at h
  · rw [if_neg h]
    rw [← partsGo_join l (keptMatches l) 0]
    simp

/-! ### Overlap resolution: equivalence with the specification's rule -/

theorem popLoop_eq_firstWins (rest : List FMatch) :
    ∀ a, popLoop a rest = a :: firstWins (some a.stop) rest := by
  induction rest with
  | nil => intro a; simp [popLoop, firstWins]
  | cons b rest ih =>
    intro a
    by_cases h : b.start < a.stop
    · simp [popLoop, firstWins, h, ih a]
    · simp [popLoop, firstWins, h, ih b]

theorem filterOverlaps_eq_firstWins (l : List FMatch) : filterOverlaps l = firstWins none l := by
  cases l with
  | nil => rfl
  | cons a rest => simpa [filterOverlaps, firstWins] using popLoop_eq_firstWins rest a

theorem firstWins_head_start (ms : List FMatch) :
    ∀ (e : Nat) (h : FMatch), (firstWins (some e) ms).head? = some h → e ≤ h.start := by
  induction ms with
  | nil => intro e h hh; simp [firstWins] at hh
  | cons m ms ih =>
    intro e h hh
    by_cases hm : m.start < e
    · rw [firstWins, if_pos hm] at hh
      exact ih e h hh
    · rw [firstWins, if_neg hm] at hh
      simp only [List.head?_cons, Option.some.injEq] at hh
      subst hh
      omega

theorem firstWins_chain (ms : List FMatch) :
    ∀ e, List.Chain' (fun a b => a.stop ≤ b.start) (firstWins (some e) ms) := by
  induction ms with
  | nil => intro e; simp [firstWins]
  | cons m ms ih =>
    intro e
    by_cases hm : m.start < e
    · rw [firstWins, if_pos hm]; exact ih e
    · rw [firstWins, if_neg hm]
      rw [List.chain'_cons']
      exact ⟨fun b hb => firstWins_head_start ms m.stop b hb, ih m.stop⟩

theorem filterOverlaps_chain (l : List FMatch) :
    List.Chain' (fun a b => a.stop ≤ b.start) (filterOverlaps l) := by
  cases l with
  | nil => simp [filterOverlaps]
  | cons a rest =>
    have h := popLoop_eq_firstWins rest a
    show List.Chain' _ (popLoop a rest)
    rw [h, List.chain'_cons']
    exact ⟨fun b hb => firstWins_head_start rest a.stop b hb, firstWins_chain rest a.stop⟩

theorem firstWins_sublist (ms : List FMatch) : ∀ o, (firstWins o ms).Sublist ms := by
  induction ms with
  | nil => intro o; cases o <;> simp [firstWins]
  | cons m ms ih =>
    intro o
    cases o with
    | none => exact List.Sublist.cons₂ m (ih (some m.stop))
    | some e =>
      by_cases hm : m.start < e
      · rw [firstWins, if_pos hm]; exact List.Sublist.cons m (ih (some e))
      · rw [firstWins, if_neg hm]; exact List.Sublist.cons₂ m (ih (some m.stop))

theorem filterOverlaps_sublist (l : List FMatch) : (filterOverlaps l).Sublist l := by
  rw [filterOverlaps_eq_firstWins]; exact firstWins_sublist l none

/-! ### The list classifier: characterization lemmas -/

theorem dropWhile_all_append (p : Char → Bool) :
    ∀ (ws t : Chars), (∀ x ∈ ws, p x = true) → (ws ++ t).dropWhile p = t.dropWhile p := by
  intro ws
  induction ws with
  | nil => simp
  | cons w ws ih =>
    intro t h
    have hw : p w = true := h w (by simp)
    simp only [List.cons_append, List.dropWhile_cons, hw, if_true]
    exact ih t fun x hx => h x (by simp [hx])

theorem takeWhile_all_append (p : Char → Bool) :
    ∀ (ws t : Chars), (∀ x ∈ ws, p x = true) → (ws ++ t).takeWhile p = ws ++ t.takeWhile p := by
  intro ws
  induction ws with
  | nil => simp
  | cons w ws ih =>
    intro t h
    have hw : p w = true := h w (by simp)
    simp only [List.cons_append, List.takeWhile_cons, hw, if_true]
    rw [ih t fun x hx => h x (by simp [hx])]

theorem isListLine_iff (l : Chars) :
    isListLine l = true ↔
      (∃ ws c rest, l = ws ++ c :: rest ∧ (∀ x ∈ ws, pyIsSpace x = true) ∧
        (c = '*' ∨ c = '-' ∨ c = '+')) ∨
      (∃ ds rest, l = ds ++ '.' :: rest ∧ ds ≠ [] ∧ (∀ x ∈ ds, x.isDigit = true)) := by
  constructor
  · intro h
    rw [isListLine, Bool.or_eq_true] at h
    rcases h with h | h
    · left
      rcases hd : l.dropWhile pyIsSpace with _ | ⟨c, rest⟩
      · rw [hd] at h; simp at h
      · rw [hd] at h
        refine ⟨l.takeWhile pyIsSpace, c, rest, ?_, ?_, ?_⟩
        · rw [← hd]; exact (List.takeWhile_append_dropWhile pyIsSpace l).symm
        · intro x hx; exact List.mem_takeWhile_imp hx
        · simp only [Bool.or_eq_true, beq_iff_eq] at h; tauto
    · right
      rw [Bool.and_eq_true] at h
      rcases h with ⟨h1, h2⟩
      rcases hd : l.dropWhile Char.isDigit with _ | ⟨c, rest⟩
      · rw [hd] at h2; simp at h2
      · rw [hd] at h2
        simp only [List.head?_cons, beq_iff_eq, Option.some.injEq] at h2
        refine ⟨l.takeWhile Char.isDigit, rest, ?_, ?_, ?_⟩
        · rw [h2] at hd; rw [← hd]; exact (List.takeWhile_append_dropWhile Char.isDigit l).symm
        · intro he; rw [he] at h1; simp at h1
        · intro x hx; exact List.mem_takeWhile_imp hx
  · intro h
    rw [isListLine, Bool.or_eq_true]
    rcases h with ⟨ws, c, rest, hl, hws, hc⟩ | ⟨ds, rest, hl, hne, hds⟩
    · left
      have hcs : pyIsSpace c = false := by rcases hc with h | h | h <;> rw [h] <;> rfl
      rw [hl, dropWhile_all_append pyIsSpace ws (c :: rest) hws,
        List.dropWhile_cons, hcs]
      simp only [Bool.false_eq_true, if_false]
      rcases hc with h | h | h <;> simp [h]
    · right
      rw [Bool.and_eq_true]
      have hdig : ('.' : Char).isDigit = false := by decide
      constructor
      · rw [hl, takeWhile_all_append Char.isDigit ds ('.' :: rest) hds]
        simp [List.takeWhile_cons, hdig, hne]
      · rw [hl, dropWhile_all_append Char.isDigit ds ('.' :: rest) hds]
        simp [List.dropWhile_cons, hdig]

theorem isListBlock_iff (lines : List Chars) :
    isListBlock lines = true ↔ ∀ l ∈ lines, isBlank l = false → isListLine l = true := by
  rw [isListBlock, List.all_eq_true]
  constructor
  · intro h l hl hb
    have := h l hl
    rw [Bool.or_eq_true, hb] at this
    simpa using this
  · intro h l hl
    rw [Bool.or_eq_true]
    cases hb : isBlank l with
    | true => left; rfl
    | false => right; exact h l hl hb

/-! ### Header handling in regular blocks -/

theorem headerMatch_starts_hash {l : Chars} {p : Nat × Chars} (h : headerMatch l = some p) :
    ∃ t, l = '#' :: t := by
  cases l with
  | nil => simp [headerMatch] at h
  | cons a t =>
    by_cases ha : a = '#'
    · exact ⟨t, by rw [ha]⟩
    · exfalso
      have hb : (a == '#') = false := by simpa using ha
      rw [headerMatch] at h
      simp [List.takeWhile_cons, hb] at h

theorem pyStrip_all_space {l : Chars} (h : pyStrip l = []) : ∀ x ∈ l, pyIsSpace x = true := by
  unfold pyStrip at h
  rw [List.reverse_eq_nil_iff, List.dropWhile_eq_nil_iff] at h
  intro x hx
  have hx2 : x ∈ l.takeWhile pyIsSpace ++ l.dropWhile pyIsSpace := by
    rw [List.takeWhile_append_dropWhile]; exact hx
  rcases List.mem_append.1 hx2 with hx' | hx'
  · exact List.mem_takeWhile_imp hx'
  · exact h x (List.mem_reverse.2 hx')

theorem isBlank_hash_false (t : Chars) : isBlank ('#' :: t) = false := by
  rw [isBlank]
  cases hs : pyStrip ('#' :: t) with
  | nil =>
    exfalso
    have := pyStrip_all_space hs '#' (by simp)
    simp [pyIsSpace] at this
  | cons a b => simp

/-- Any line of a regular block matching the header pattern is emitted as a
header: one insert of the text plus newline, one heading paragraph style over
it, regardless of the line's position in the block. -/
theorem emitRegularLine_header (c : Nat) (l : Chars) (lvl : Nat) (txt : Chars)
    (h : headerMatch l = some (lvl, txt)) :
    emitRegularLine c l =
      ([Req.insertText c (txt ++ ['\n']),
        Req.updateParagraphStyle c (c + txt.length + 1) lvl], c + txt.length + 1) := by
  obtain ⟨t, rfl⟩ := headerMatch_starts_hash h
  rw [emitRegularLine, isBlank_hash_false]
  simp only [Bool.false_eq_true, if_false, h]
  simp [Nat.add_assoc]

/-- A non-blank, non-header line of a regular block goes through the inline
span scanner. -/
theorem emitRegularLine_inline (c : Nat) (l : Chars) (hb : isBlank l = false)
    (h : headerMatch l = none) :
    emitRegularLine c l = emitFold emitPart c (lineParts l) := by
  rw [emitRegularLine, hb]
  simp only [Bool.false_eq_true, if_false, h]

/-! ### Fenced code: only a full fence match produces the code style -/

theorem emitPart_no_code (c : Nat) (p : Part) :
    ∀ r ∈ (emitPart c p).1, isCodeStyle r = false := by
  cases hp : p.kind <;> simp [emitPart, hp, isCodeStyle]

theorem emitFold_no_code (f : Nat → α → List Req × Nat)
    (hf : ∀ c x r, r ∈ (f c x).1 → isCodeStyle r = false) :
    ∀ (xs : List α) (c : Nat) (r : Req), r ∈ (emitFold f c xs).1 → isCodeStyle r = false := by
  intro xs
  induction xs with
  | nil => intro c r hr; simp [emitFold] at hr
  | cons x xs ih =>
    intro c r hr
    rcases List.mem_append.1 hr with hr | hr
    · exact hf c x r hr
    · exact ih (f c x).2 r hr

theorem emitRegularLine_no_code (c : Nat) (l : Chars) :
    ∀ r ∈ (emitRegularLine c l).1, isCodeStyle r = false := by
  rw [emitRegularLine]
  split
  · simp [isCodeStyle]
  · split
    · simp [isCodeStyle]
    · exact fun r hr => emitFold_no_code emitPart (fun c p => emitPart_no_code c p) (lineParts l) c r hr

theorem emitListLine_no_code (c : Nat) (l : Chars) :
    ∀ r ∈ (emitListLine c l).1, isCodeStyle r = false := by
  rw [emitListLine]
  split
  · simp [isCodeStyle]
  · split
    · simp [isCodeStyle]
    · simp [isCodeStyle]

/-- A block that is not a full fence match emits no code-style request: it is
handled by the list or regular paths, which never use the monospace style. -/
theorem emitBlock_no_code (c : Nat) (b : Chars) (h : codeFenceMatch b = none) :
    ∀ r ∈ (emitBlock c b).1, isCodeStyle r = false := by
  have he : emitBlock c b =
      if isListBlock (splitLines b) && !(splitLines b).isEmpty then
        withSeparator (emitFold emitListLine c (splitLines b))
      else withSeparator (emitFold emitRegularLine c (splitLines b)) := by
    rw [emitBlock, h]
  rw [he]
  split
  · intro r hr
    simp only [withSeparator] at hr
    rcases List.mem_append.1 hr with hr | hr
    · exact emitFold_no_code emitListLine emitListLine_no_code _ c r hr
    · simp at hr; simp [hr, isCodeStyle]
  · intro r hr
    simp only [withSeparator] at hr
    rcases List.mem_append.1 hr with hr | hr
    · exact emitFold_no_code emitRegularLine emitRegularLine_no_code _ c r hr
    · simp at hr; simp [hr, isCodeStyle]

/-! ### Claim theorems -/

/-- C1 (counterexample): for the input `*Good luck!*` the cursor held after
the last emitted request is 25 while 1 plus the sum of the lengths of all
inserted texts is 26 — conservation fails because the final newline insert of
the good-luck special case does not advance the cursor. -/
theorem c1_conservation_counterexample :
    mdFinalCursor "*Good luck!*".toList ≠
      1 + insLen (markdown_to_docs_requests "*Good luck!*".toList) := by decide

/-- C1 (amended): conservation — final cursor = 1 + sum of inserted text
lengths — holds for every input whose stripped last line is not exactly
`*Good luck!*`; for inputs where it is, the final newline insert does not
advance the cursor, so the final cursor falls short by exactly one. -/
theorem c1_conservation_amended (md : Chars) :
    mdFinalCursor md + (if hasGoodLuck md then 1 else 0)
      = 1 + insLen (markdown_to_docs_requests md) :=
  mdRun_conserve md

/-- C2: across every emitted sequence the insert indices and style-range start
indices are non-decreasing in emission order and at least 1 (`MonoB`), every
style request's end index is at most the cursor value recorded immediately
after the corresponding (most recent) insert (`AdjFrom`), and every style
range falls within text already covered by prior inserts, which are
append-only (`CovFrom`). -/
theorem c2_monotone_and_covered (md : Chars) :
    MonoB 1 (markdown_to_docs_requests md) (mdFinalCursor md)
      ∧ (∀ r ∈ markdown_to_docs_requests md, 1 ≤ primIdx r)
      ∧ CovFrom 1 (markdown_to_docs_requests md)
      ∧ AdjFrom none (markdown_to_docs_requests md) :=
  ⟨mdRun_mono md, monoB_all_ge (mdRun_mono md), mdRun_cov md, mdRun_adj md⟩

/-- C2 (witness): the invariants instantiated at a concrete input. -/
theorem c2_monotone_and_covered_witness :
    MonoB 1 (markdown_to_docs_requests "# T\n\n- a".toList)
        (mdFinalCursor "# T\n\n- a".toList)
      ∧ (∀ r ∈ markdown_to_docs_requests "# T\n\n- a".toList, 1 ≤ primIdx r)
      ∧ CovFrom 1 (markdown_to_docs_requests "# T\n\n- a".toList)
      ∧ AdjFrom none (markdown_to_docs_requests "# T\n\n- a".toList) :=
  c2_monotone_and_covered _

/-- C3: inline overlap resolution is first-wins by start position — the
source's pop-loop equals the specification's scan of the sorted list dropping
every candidate whose start lies before the end of the most recently kept
one; the kept candidates are a subsequence of the pool and pairwise
non-overlapping; and on the line `**bold *nested* text**` exactly one span is
kept, the outer bold span with text `bold *nested* text`, the inner italic
candidates being discarded. -/
theorem c3_first_wins_overlap :
    (∀ ms : List FMatch, filterOverlaps ms = firstWins none ms)
      ∧ (∀ ms : List FMatch, (filterOverlaps ms).Sublist ms)
      ∧ (∀ ms : List FMatch,
          List.Chain' (fun a b => a.stop ≤ b.start) (filterOverlaps ms))
      ∧ keptMatches "**bold *nested* text**".toList
          = [⟨0, 22, "bold *nested* text".toList, MKind.bold⟩] :=
  ⟨filterOverlaps_eq_firstWins, filterOverlaps_sublist, filterOverlaps_chain, by decide⟩

/-- C3 (witness): the first-wins equality instantiated at a concrete pool. -/
theorem c3_first_wins_overlap_witness :
    filterOverlaps (sortByStart (allCandidates "**a** *b*".toList))
      = firstWins none (sortByStart (allCandidates "**a** *b*".toList)) :=
  c3_first_wins_overlap.1 _

/-- C4 (counterexample): for the line `x **b**` the concatenation of the
texts of the insertText requests emitted for the line, excluding the trailing
newline run, is `x b` — the bold delimiters are dropped — so it is not equal
to the original line. -/
theorem c4_span_coverage_counterexample :
    ((insTexts (emitFold emitPart 1 (lineParts "x **b**".toList)).1).dropLast).flatten
      ≠ "x **b**".toList := by decide

/-- C4 (amended): for every line and cursor, the concatenation of the texts
of the insertText requests emitted for the line, excluding the synthetic
trailing newline run, equals the line with each kept span's matched region
replaced by its captured inner text (its delimiters dropped); it equals the
original line exactly when no span is kept. -/
theorem c4_span_coverage_amended :
    (∀ (c : Nat) (l : Chars),
        ((insTexts (emitFold emitPart c (lineParts l)).1).dropLast).flatten
          = renderSpans l 0 (keptMatches l))
      ∧ (∀ l : Chars, keptMatches l = [] →
          ((insTexts (emitFold emitPart 1 (lineParts l)).1).dropLast).flatten = l) := by
  refine ⟨lineConcat_renders, ?_⟩
  intro l hk
  rw [lineConcat_renders 1 l, hk]
  simp [renderSpans]

/-- C4 (witness): the amended claim applied to a concrete unformatted line. -/
theorem c4_span_coverage_amended_witness :
    keptMatches "plain".toList = []
      ∧ ((insTexts (emitFold emitPart 1 (lineParts "plain".toList)).1).dropLast).flatten
          = "plain".toList :=
  ⟨by decide, c4_span_coverage_amended.2 "plain".toList (by decide)⟩

/-- C5 (counterexample): for the unterminated fence of Scenario D the
function emits five plain insert requests for the block, not zero
operations. -/
theorem c5_malformed_fence_counterexample :
    markdown_to_docs_requests "```python\nprint(1)".toList =
        [Req.insertText 1 "```python".toList,
         Req.insertText 10 ['\n'],
         Req.insertText 11 "print(1)".toList,
         Req.insertText 19 ['\n'],
         Req.insertText 20 ['\n']]
      ∧ markdown_to_docs_requests "```python\nprint(1)".toList ≠ [] :=
  ⟨by decide, by decide⟩

/-- C5 (amended): a block that fails the full fenced pattern is not treated
as code: it falls through to the list/paragraph paths, which never emit the
monospace code style — so the block's raw lines are inserted as plain text
rather than producing zero operations. -/
theorem c5_malformed_fence_amended :
    (∀ (c : Nat) (b : Chars), codeFenceMatch b = none →
        ∀ r ∈ (emitBlock c b).1, isCodeStyle r = false)
      ∧ (∀ r ∈ markdown_to_docs_requests "```python\nprint(1)".toList,
          isCodeStyle r = false) :=
  ⟨emitBlock_no_code, by decide⟩

/-- C5 (witness): the amended claim applied to Scenario D's block. -/
theorem c5_malformed_fence_amended_witness :
    codeFenceMatch "```python\nprint(1)".toList = none
      ∧ ∀ r ∈ (emitBlock 1 "```python\nprint(1)".toList).1, isCodeStyle r = false :=
  ⟨by decide, c5_malformed_fence_amended.1 1 _ (by decide)⟩

/-- C6 (counterexample): on the Scenario A input the emitted sequence differs
from the four requests the claim predicts. -/
theorem c6_scenario_a_counterexample :
    markdown_to_docs_requests "# Title\n\nplain text".toList ≠ scenarioAClaimed := by decide

/-- C6 (amended): Scenario A actually yields six requests: the block
separator newline also follows the header block, and a paragraph line's text
and its newline are two separate inserts, so the second block contributes
`plain text`@8, `\n`@18 and the final separator `\n`@19. -/
theorem c6_scenario_a_amended :
    markdown_to_docs_requests "# Title\n\nplain text".toList =
      [Req.insertText 1 "Title\n".toList,
       Req.updateParagraphStyle 1 7 1,
       Req.insertText 7 ['\n'],
       Req.insertText 8 "plain text".toList,
       Req.insertText 18 ['\n'],
       Req.insertText 19 ['\n']] := by decide

/-- C7 (counterexample): the one-line block `*x*` fails the claim's item test
(no space follows the `*`), yet the classifier accepts it and the block is
processed as a list: the line is inserted raw by the list fallback path,
with no italic processing. -/
theorem c7_list_classifier_counterexample :
    isListBlock (splitLines "*x*".toList) = true
      ∧ claimListItemLine "*x*".toList = false
      ∧ markdown_to_docs_requests "*x*".toList =
          [Req.insertText 1 "*x*\n".toList, Req.insertText 5 ['\n']] :=
  ⟨by decide, by decide, by decide⟩

/-- C7 (amended): a block is classified as a list iff every non-blank line
either starts with optional whitespace followed by `*`, `-` or `+` — with no
space required after the marker — or starts with a non-empty digit run
followed immediately by a period — with no leading whitespace allowed and no
space required after the period. -/
theorem c7_list_classifier_amended :
    (∀ lines : List Chars, isListBlock lines = true ↔
        ∀ l ∈ lines, isBlank l = false → isListLine l = true)
      ∧ (∀ l : Chars, isListLine l = true ↔
          (∃ ws c rest, l = ws ++ c :: rest ∧ (∀ x ∈ ws, pyIsSpace x = true) ∧
            (c = '*' ∨ c = '-' ∨ c = '+')) ∨
          (∃ ds rest, l = ds ++ '.' :: rest ∧ ds ≠ [] ∧ (∀ x ∈ ds, x.isDigit = true))) :=
  ⟨isListBlock_iff, isListLine_iff⟩

/-- C7 (witness): the block characterization instantiated at a concrete
block. -/
theorem c7_list_classifier_amended_witness :
    isListBlock (splitLines "- a\n1. b".toList) = true ↔
      ∀ l ∈ splitLines "- a\n1. b".toList, isBlank l = false → isListLine l = true :=
  c7_list_classifier_amended.1 _

/-- C8 (counterexample): in the single block `# A` newline `# B`, both lines
are emitted as headers — two updateParagraphStyle requests appear — though
the claim says only the first line of a header-led block is a header. -/
theorem c8_header_counterexample :
    markdown_to_docs_requests "# A\n# B".toList =
        [Req.insertText 1 "A\n".toList, Req.updateParagraphStyle 1 3 1,
         Req.insertText 3 "B\n".toList, Req.updateParagraphStyle 3 5 1,
         Req.insertText 5 ['\n']]
      ∧ List.countP isParaHeading (markdown_to_docs_requests "# A\n# B".toList) = 2 :=
  ⟨by decide, by decide⟩

/-- C8 (amended): in a regular (non-code, non-list) block every line matching
the header pattern is emitted as a header — an insert of its text plus
newline and a HEADING_level paragraph style — not only the first line; a
non-blank line that does not match the pattern falls through to the inline
span scanner. -/
theorem c8_header_amended :
    (∀ (c : Nat) (l : Chars) (lvl : Nat) (txt : Chars),
        headerMatch l = some (lvl, txt) →
          emitRegularLine c l =
            ([Req.insertText c (txt ++ ['\n']),
              Req.updateParagraphStyle c (c + txt.length + 1) lvl], c + txt.length + 1))
      ∧ (∀ (c : Nat) (l : Chars), isBlank l = false → headerMatch l = none →
          emitRegularLine c l = emitFold emitPart c (lineParts l)) :=
  ⟨emitRegularLine_header, emitRegularLine_inline⟩

/-- C8 (witness): the header equation applied to a concrete line in a
non-initial position (cursor 7). -/
theorem c8_header_amended_witness :
    headerMatch "## Hi".toList = some (2, "Hi".toList)
      ∧ emitRegularLine 7 "## Hi".toList =
          ([Req.insertText 7 ("Hi".toList ++ ['\n']),
            Req.updateParagraphStyle 7 (7 + "Hi".toList.length + 1) 2],
            7 + "Hi".toList.length + 1) :=
  ⟨by decide, c8_header_amended.1 7 "## Hi".toList 2 "Hi".toList (by decide)⟩

/-- C9 (counterexample): the empty input does not yield an empty request
list. -/
theorem c9_empty_input_counterexample :
    markdown_to_docs_requests "".toList ≠ [] := by decide

/-- C9 (amended): the empty input yields exactly one empty block (Python's
`re.split` never returns an empty list), which the classifier treats as a
vacuous list block: its empty line is inserted as a bare newline and the list
trailing separator follows, so the result is two newline inserts. -/
theorem c9_empty_input_amended :
    splitBlocks "".toList = [[]]
      ∧ markdown_to_docs_requests "".toList =
          [Req.insertText 1 ['\n'], Req.insertText 2 ['\n']] :=
  ⟨by decide, by decide⟩

/-- C10 (counterexample): for the input `*Good luck!*` — whose only block is
classified as a list, so the line is inserted raw with its asterisks by the
list fallback — the text `Good luck!` appears in exactly one insertText (the
special-case one), not twice as the claim states. -/
theorem c10_good_luck_counterexample :
    markdown_to_docs_requests "*Good luck!*".toList =
        [Req.insertText 1 "*Good luck!*\n".toList,
         Req.insertText 14 ['\n'],
         Req.insertText 15 "Good luck!".toList,
         Req.updateTextStyle 15 25 TextStyle.italic,
         Req.insertText 25 ['\n']]
      ∧ List.countP isGoodLuckIns (markdown_to_docs_requests "*Good luck!*".toList) = 1 :=
  ⟨by decide, by decide⟩

/-- C10 (amended): whenever the stripped input's last line, stripped, is
`*Good luck!*`, the function appends after all blocks an insert of
`Good luck!`, an italic style over it and a final newline insert that does
not advance the cursor — so the final cursor equals the total inserted
length, one less than elsewhere.  The doubled insertion claimed does occur
when the good-luck line's block is not list-classified (count 2 on
`See` newline `*Good luck!*`), but not when the line forms its own block. -/
theorem c10_good_luck_amended :
    (∀ md : Chars, hasGoodLuck md = true →
        markdown_to_docs_requests md =
            (emitFold emitBlock 1 (splitBlocks md)).1 ++
              [Req.insertText (emitFold emitBlock 1 (splitBlocks md)).2 goodLuckChars,
               Req.updateTextStyle (emitFold emitBlock 1 (splitBlocks md)).2
                 ((emitFold emitBlock 1 (splitBlocks md)).2 + goodLuckChars.length)
                 TextStyle.italic,
               Req.insertText
                 ((emitFold emitBlock 1 (splitBlocks md)).2 + goodLuckChars.length) ['\n']]
          ∧ mdFinalCursor md = insLen (markdown_to_docs_requests md))
      ∧ List.countP isGoodLuckIns
          (markdown_to_docs_requests "See\n*Good luck!*".toList) = 2 := by
  constructor
  · intro md h
    constructor
    · show (mdRun md).1 = _
      rw [mdRun]
      simp [h]
    · have hcons := mdRun_conserve md
      rw [h] at hcons
      simp at hcons
      show (mdRun md).2 = insLen (mdRun md).1
      omega
  · decide

/-- C10 (witness): the amended claim applied to the input `*Good luck!*`. -/
theorem c10_good_luck_amended_witness :
    hasGoodLuck "*Good luck!*".toList = true
      ∧ mdFinalCursor "*Good luck!*".toList
          = insLen (markdown_to_docs_requests "*Good luck!*".toList) :=
  ⟨by decide, (c10_good_luck_amended.1 "*Good luck!*".toList (by decide)).2⟩

end MdDocs
